import Mathlib

/-!
Shallow embedding of the TD-learning slider agent of `agent.h`
(class `weight_agent` and the collaborators it uses).

Conventions of the embedding:
* C++ `float` values (weights, estimates, the learning rate) are modelled as
  exact rationals `ℚ`; `board::reward` (an integer type) as `Int`;
  tuple indices as `Nat`.
* The board (`board.h`) and the weight-table stream operators (`weight.h`)
  are not part of the sources; they are modelled from the specification as
  abstract capabilities (see the doc comments marked "Modelled from the spec").
* Mutation of the agent's member fields (`net`, `s_V`, `train`, `s_tuples`)
  is modelled by explicit state passing: `take_action` and `last_update`
  return the updated agent record.
-/

/-- A 4×4 grid of cell values (`board::grid`): row index first, column second. -/
def Grid : Type := Fin 4 → Fin 4 → Nat

/-- Modelled from the spec: the external board capability (`board.h` is not
among the sources).  Per §6 of the spec the core consumes
`slide(direction) → reward_or_illegal` (−1 is the illegal sentinel),
`totalValue() → number` (the field `value` is the total value of the board
before any slide, `value_after op` the total value of a copy after sliding
in direction `op`), and the non-mutating afterstate grid `state_plun`.
The code calls `state_plun` with `op_best`, which can be the sentinel −1,
so its domain is all of `Int`. -/
structure board where
  slide : Int → Int
  value_after : Int → Int
  value : Int
  state_plun : Int → Grid

/-- The action values produced by the engine (`action.h`): a slide in some
direction, or the default-constructed null action.  (Placement actions are
used only by the excluded placer baseline.) -/
inductive action where
  | null : action
  | slide (op : Int) : action
deriving DecidableEq

/-- The mutable state of a `weight_agent`: the 8 weight tables `net`
(table index first, entry index second), the learning rate `alpha`, and the
carried learning state `s_V` (previous estimate), `train` (whether a previous
decision exists) and `s_tuples` (previous afterstate's feature tuples). -/
structure weight_agent where
  net : Nat → Nat → ℚ
  alpha : ℚ
  s_V : ℚ
  train : Bool
  s_tuples : List Nat

/-- `weight_agent::get_tuple`: the 8 feature indices of a grid, the four rows
first (top to bottom) and then the four columns (left to right), each packed
most-significant digit first as `16·16·16·d0 + 16·16·d1 + 16·d2 + d3`.
The C++ loop over `i = 0..3` pushes one row index per iteration while
collecting the four column lists `col1..col4`; unrolled it produces exactly
this list. -/
def get_tuple (state : Grid) : List Nat :=
  [16 * 16 * 16 * state 0 0 + 16 * 16 * state 0 1 + 16 * state 0 2 + state 0 3,
   16 * 16 * 16 * state 1 0 + 16 * 16 * state 1 1 + 16 * state 1 2 + state 1 3,
   16 * 16 * 16 * state 2 0 + 16 * 16 * state 2 1 + 16 * state 2 2 + state 2 3,
   16 * 16 * 16 * state 3 0 + 16 * 16 * state 3 1 + 16 * state 3 2 + state 3 3,
   16 * 16 * 16 * state 0 0 + 16 * 16 * state 1 0 + 16 * state 2 0 + state 3 0,
   16 * 16 * 16 * state 0 1 + 16 * 16 * state 1 1 + 16 * state 2 1 + state 3 1,
   16 * 16 * 16 * state 0 2 + 16 * 16 * state 1 2 + 16 * state 2 2 + state 3 2,
   16 * 16 * 16 * state 0 3 + 16 * 16 * state 1 3 + 16 * state 2 3 + state 3 3]

/-- `weight_agent::get_V`: sum over `i = 0..7` of `net[i][tuples[i]]`. -/
def get_V (net : Nat → Nat → ℚ) (tuples : List Nat) : ℚ :=
  (List.range 8).foldl (fun result i => result + net i (tuples.getD i 0)) 0

/-- `weight_agent::update_weight`: for `i = 0..7`,
`net[i][s_tuples[i]] += alpha · (st_1_r_V − s_V)`.  Each of the 8 tables is
written at exactly one entry, so the loop is the pointwise function below. -/
def update_weight (ag : weight_agent) (st_1_r_V : ℚ) : Nat → Nat → ℚ :=
  fun i j =>
    if i < 8 ∧ j = ag.s_tuples.getD i 0 then
      ag.net i j + ag.alpha * (st_1_r_V - ag.s_V)
    else ag.net i j

/-- `weight_agent::last_update`: for `i = 0..7`,
`net[i][s_tuples[i]] += alpha · (0 − s_V)`.  Only `net` is written; the
carried fields `s_V`, `train` and `s_tuples` are not touched. -/
def last_update (ag : weight_agent) : weight_agent :=
  { ag with
    net := fun i j =>
      if i < 8 ∧ j = ag.s_tuples.getD i 0 then
        ag.net i j + ag.alpha * (0 - ag.s_V)
      else ag.net i j }

/-- The candidate value `r_V` the search loop computes for direction `op`:
`Reward + V` where `Reward = tmp.value() − before.value()` (the realized
value delta of the slide) and `V` is the network estimate of the afterstate
grid's feature tuples. -/
def cand (ag : weight_agent) (before : board) (op : Int) : ℚ :=
  ((before.value_after op - before.value : Int) : ℚ) +
    get_V ag.net (get_tuple (before.state_plun op))

/-- One iteration of the search loop of `take_action` on the accumulator
`(op_best, r_V_best)`: directions whose slide returns the sentinel −1 are
skipped, and the incumbent is replaced exactly when `r_V > r_V_best`.
(The in-loop `best_state` assignment is dead: it is unconditionally
overwritten after the loop.) -/
def searchStep (ag : weight_agent) (before : board) (acc : Int × ℚ) (op : Int) :
    Int × ℚ :=
  if before.slide op = -1 then acc
  else if cand ag before op > acc.2 then (op, cand ag before op) else acc

/-- The search loop of `take_action`: `for (int op : opcode)` with
`opcode = {0, 1, 2, 3}`, starting from `op_best = -1` and
`r_V_best = -1.0`. -/
def search (ag : weight_agent) (before : board) : Int × ℚ :=
  [0, 1, 2, 3].foldl (searchStep ag before) (-1, -1)

/-- `weight_agent::take_action`: run the search, then (if `train` is set)
apply `update_weight` with this search's `r_V_best`, then recompute the
carried state from `state_plun(op_best)` against the possibly-updated
tables, set `train`, and return `action::slide(op_best)` when
`op_best != -1` and the null action otherwise. -/
def take_action (ag : weight_agent) (before : board) : weight_agent × action :=
  let op_best := (search ag before).1
  let r_V_best := (search ag before).2
  let net' := if ag.train then update_weight ag r_V_best else ag.net
  let s_tuples' := get_tuple (before.state_plun op_best)
  let s_V' := get_V net' s_tuples'
  let ag' : weight_agent :=
    { net := net', alpha := ag.alpha, s_V := s_V', train := true,
      s_tuples := s_tuples' }
  if op_best ≠ -1 then (ag', action.slide op_best) else (ag', action.null)

/-- Modelled from the spec: the serialized weight file (`weight.h`'s stream
operators are not among the sources).  Per §4.2 the layout is a 32-bit
unsigned table count followed by the tables' raw element sequences
back-to-back, with no per-table length prefix; the byte stream is abstracted
to the count and the flat list of scalars. -/
structure WeightFile where
  count : Nat
  data : List ℚ

/-- `weight_agent::save_weights` on an openable stream: write
`uint32_t size = net.size()` and then every table's elements in order. -/
def save_weights (net : List (List ℚ)) : WeightFile :=
  ⟨net.length % 2 ^ 32, net.flatten⟩

/-- Modelled from the spec: reading `count` tables back from the flat scalar
stream, each table's element count being implicitly 65536 (fixed by the
extractor's index range, §4.2). -/
def readTables : Nat → List ℚ → List (List ℚ)
  | 0, _ => []
  | n + 1, data => data.take 65536 :: readTables n (data.drop 65536)

/-- `weight_agent::load_weights` on an openable stream: read the table
count, resize `net` to it, and read each table back from the stream. -/
def load_weights (f : WeightFile) : List (List ℚ) :=
  readTables f.count f.data

/-- `weight_agent::load_weights` including its failure path: the stream is
abstracted as `Option WeightFile` (`none` when the file cannot be opened),
and `if (!in.is_open()) std::exit(-1)` is modelled as `Except.error (-1)`,
the process exit code. -/
def load_weights_io (file : Option WeightFile) : Except Int (List (List ℚ)) :=
  match file with
  | Option.none => Except.error (-1)
  | Option.some f => Except.ok (load_weights f)

/-- `weight_agent::save_weights` including its failure path: `can_open`
abstracts whether the output stream opens; on failure the code runs
`std::exit(-1)`, modelled as `Except.error (-1)`. -/
def save_weights_io (can_open : Bool) (net : List (List ℚ)) :
    Except Int WeightFile :=
  if can_open then Except.ok (save_weights net) else Except.error (-1)

/-! Concrete boards and agent states used to instantiate the theorems below. -/

/-- The all-empty grid. -/
def gZero : Grid := fun _ _ => 0

/-- The all-15 grid (every cell at the top of the nibble range). -/
def gMax : Grid := fun _ _ => 15

/-- A fresh agent: zero tables, default learning rate 0.0125, no carried
decision yet. -/
def agFresh : weight_agent :=
  { net := fun _ _ => 0, alpha := 1 / 80, s_V := 0, train := false,
    s_tuples := [] }

/-- A board on which every direction is legal (slide reward 0) and the value
deltas of directions 0..3 are 1, 3, 3, 0; every afterstate is the empty
grid. -/
def bAllLegal : board :=
  { slide := fun _ => 0,
    value_after := fun op => if op = 0 then 1 else if op = 1 then 3 else
      if op = 2 then 3 else 0,
    value := 0,
    state_plun := fun _ => gZero }

/-- An agent whose every weight is −1, so every 8-tuple estimate is −8. -/
def agAllNeg : weight_agent :=
  { net := fun _ _ => -1, alpha := 1 / 80, s_V := 0, train := false,
    s_tuples := [] }

/-- A board whose only legal direction is 0, with value delta 0. -/
def bOnlyZero : board :=
  { slide := fun op => if op = 0 then 0 else -1,
    value_after := fun _ => 0, value := 0, state_plun := fun _ => gZero }

/-- A board whose only legal direction is 2, with value delta 5. -/
def bOnlyTwo : board :=
  { slide := fun op => if op = 2 then 0 else -1,
    value_after := fun op => if op = 2 then 5 else 0, value := 0,
    state_plun := fun _ => gZero }

/-- An agent carrying a previous decision: `train` set, previous tuples
`[1,2,3,4,5,6,7,8]`, previous estimate 0, learning rate 1. -/
def agCarry : weight_agent :=
  { net := fun _ _ => 0, alpha := 1, s_V := 0, train := true,
    s_tuples := [1, 2, 3, 4, 5, 6, 7, 8] }

/-- An agent carrying a previous decision whose every weight is −1 (so
every 8-tuple estimate is −8), with previous tuples all 0, previous
estimate 0 and learning rate 1. -/
def agNegCarry : weight_agent :=
  { net := fun _ _ => -1, alpha := 1, s_V := 0, train := true,
    s_tuples := [0, 0, 0, 0, 0, 0, 0, 0] }

/-- A board on which no direction is legal. -/
def bDead : board :=
  { slide := fun _ => -1, value_after := fun _ => 0, value := 0,
    state_plun := fun _ => gZero }

/-- An agent carrying a previous decision with estimate 5 and learning rate
0.1, previous tuples all 0 (the spec's terminal-flush example values). -/
def agFlush : weight_agent :=
  { net := fun _ _ => 0, alpha := 1 / 10, s_V := 5, train := true,
    s_tuples := [0, 0, 0, 0, 0, 0, 0, 0] }

/-- An agent carrying a previous decision whose tuples are all 0 (the tuples
of the empty grid), with zero tables and estimate 0. -/
def agOverlap : weight_agent :=
  { net := fun _ _ => 0, alpha := 1 / 80, s_V := 0, train := true,
    s_tuples := [0, 0, 0, 0, 0, 0, 0, 0] }

/-- A board whose only legal direction is 0, with value delta 3 and the
empty grid as afterstate (its tuples are all 0, colliding with
`agOverlap.s_tuples`). -/
def bDelta3 : board :=
  { slide := fun op => if op = 0 then 0 else -1,
    value_after := fun _ => 3, value := 0, state_plun := fun _ => gZero }

/-! Helper lemmas about the search loop and the shape of `take_action`. -/

lemma searchStep_keep (ag : weight_agent) (before : board) (acc : Int × ℚ)
    (op : Int) (h : before.slide op = -1 ∨ cand ag before op ≤ acc.2) :
    searchStep ag before acc op = acc := by
  unfold searchStep
  by_cases h1 : before.slide op = -1
  · rw [if_pos h1]
  · rw [if_neg h1, if_neg]
    rcases h with h | h
    · exact absurd h h1
    · exact not_lt.mpr h

lemma searchStep_take (ag : weight_agent) (before : board) (acc : Int × ℚ)
    (op : Int) (h1 : before.slide op ≠ -1) (h2 : acc.2 < cand ag before op) :
    searchStep ag before acc op = (op, cand ag before op) := by
  unfold searchStep
  rw [if_neg h1, if_pos h2]

lemma searchStep_cases (ag : weight_agent) (before : board) (acc : Int × ℚ)
    (op : Int) :
    searchStep ag before acc op = acc ∨
      (before.slide op ≠ -1 ∧ acc.2 < cand ag before op ∧
        searchStep ag before acc op = (op, cand ag before op)) := by
  by_cases h1 : before.slide op = -1
  · exact Or.inl (searchStep_keep ag before acc op (Or.inl h1))
  · by_cases h2 : acc.2 < cand ag before op
    · exact Or.inr ⟨h1, h2, searchStep_take ag before acc op h1 h2⟩
    · exact Or.inl (searchStep_keep ag before acc op (Or.inr (not_lt.mp h2)))

lemma foldl_keep (ag : weight_agent) (before : board) :
    ∀ (L : List Int) (acc : Int × ℚ),
      (∀ op ∈ L, before.slide op = -1 ∨ cand ag before op ≤ acc.2) →
      L.foldl (searchStep ag before) acc = acc := by
  intro L
  induction L with
  | nil => intro acc _; rfl
  | cons a T ih =>
    intro acc h
    rw [List.foldl_cons,
      searchStep_keep ag before acc a (h a (List.mem_cons_self a T))]
    exact ih acc (fun op hop => h op (List.mem_cons_of_mem a hop))

lemma foldl_lt (ag : weight_agent) (before : board) :
    ∀ (L : List Int) (acc : Int × ℚ) (c : ℚ),
      acc.2 < c →
      (∀ op ∈ L, before.slide op ≠ -1 → cand ag before op < c) →
      (L.foldl (searchStep ag before) acc).2 < c := by
  intro L
  induction L with
  | nil => intro acc c hacc _; exact hacc
  | cons a T ih =>
    intro acc c hacc h
    rw [List.foldl_cons]
    refine ih (searchStep ag before acc a) c ?_
      (fun op hop h1 => h op (List.mem_cons_of_mem a hop) h1)
    rcases searchStep_cases ag before acc a with heq | ⟨h1, _, heq⟩
    · rw [heq]; exact hacc
    · rw [heq]; exact h a (List.mem_cons_self a T) h1

lemma foldl_fst_ne (ag : weight_agent) (before : board) :
    ∀ (L : List Int) (acc : Int × ℚ),
      (∀ op ∈ L, op ≠ -1) → acc.1 ≠ -1 →
      (L.foldl (searchStep ag before) acc).1 ≠ -1 := by
  intro L
  induction L with
  | nil => intro acc _ h; exact h
  | cons a T ih =>
    intro acc hL h
    rw [List.foldl_cons]
    refine ih (searchStep ag before acc a)
      (fun op hop => hL op (List.mem_cons_of_mem a hop)) ?_
    rcases searchStep_cases ag before acc a with heq | ⟨_, _, heq⟩
    · rw [heq]; exact h
    · rw [heq]; exact hL a (List.mem_cons_self a T)

lemma foldl_hits (ag : weight_agent) (before : board) :
    ∀ (L : List Int) (acc : Int × ℚ),
      (∀ op ∈ L, op ≠ -1) →
      (∃ op ∈ L, before.slide op ≠ -1 ∧ acc.2 < cand ag before op) →
      (L.foldl (searchStep ag before) acc).1 ≠ -1 := by
  intro L
  induction L with
  | nil =>
    intro acc _ hex
    rcases hex with ⟨op, hop, _⟩
    exact absurd hop (List.not_mem_nil op)
  | cons a T ih =>
    intro acc hL hex
    rw [List.foldl_cons]
    by_cases h1 : before.slide a = -1
    · rw [searchStep_keep ag before acc a (Or.inl h1)]
      refine ih acc (fun op hop => hL op (List.mem_cons_of_mem a hop)) ?_
      rcases hex with ⟨op, hop, hleg, hlt⟩
      rcases List.mem_cons.mp hop with rfl | hop'
      · exact absurd h1 hleg
      · exact ⟨op, hop', hleg, hlt⟩
    · by_cases h2 : acc.2 < cand ag before a
      · rw [searchStep_take ag before acc a h1 h2]
        exact foldl_fst_ne ag before T (a, cand ag before a)
          (fun op hop => hL op (List.mem_cons_of_mem a hop))
          (hL a (List.mem_cons_self a T))
      · rw [searchStep_keep ag before acc a (Or.inr (not_lt.mp h2))]
        refine ih acc (fun op hop => hL op (List.mem_cons_of_mem a hop)) ?_
        rcases hex with ⟨op, hop, hleg, hlt⟩
        rcases List.mem_cons.mp hop with rfl | hop'
        · exact absurd hlt h2
        · exact ⟨op, hop', hleg, hlt⟩

lemma foldl_ge (ag : weight_agent) (before : board) :
    ∀ (L : List Int) (acc : Int × ℚ),
      acc.2 ≤ (L.foldl (searchStep ag before) acc).2 := by
  intro L
  induction L with
  | nil => intro acc; exact le_refl acc.2
  | cons a T ih =>
    intro acc
    rw [List.foldl_cons]
    rcases searchStep_cases ag before acc a with heq | ⟨_, hlt, heq⟩
    · rw [heq]
      exact ih acc
    · rw [heq]
      exact le_trans (le_of_lt hlt) (ih (a, cand ag before a))

lemma foldl_ub (ag : weight_agent) (before : board) :
    ∀ (L : List Int) (acc : Int × ℚ) (op : Int), op ∈ L →
      before.slide op ≠ -1 →
      cand ag before op ≤ (L.foldl (searchStep ag before) acc).2 := by
  intro L
  induction L with
  | nil => intro acc op hop; exact absurd hop (List.not_mem_nil op)
  | cons a T ih =>
    intro acc op hop hleg
    rw [List.foldl_cons]
    rcases List.mem_cons.mp hop with rfl | hop'
    · by_cases h2 : acc.2 < cand ag before op
      · rw [searchStep_take ag before acc op hleg h2]
        exact foldl_ge ag before T (op, cand ag before op)
      · rw [searchStep_keep ag before acc op (Or.inr (not_lt.mp h2))]
        exact le_trans (not_lt.mp h2) (foldl_ge ag before T acc)
    · exact ih (searchStep ag before acc a) op hop' hleg

lemma foldl_snd_sources (ag : weight_agent) (before : board) :
    ∀ (L : List Int) (acc : Int × ℚ),
      (L.foldl (searchStep ag before) acc).2 = acc.2 ∨
        ∃ op ∈ L, before.slide op ≠ -1 ∧
          (L.foldl (searchStep ag before) acc).2 = cand ag before op := by
  intro L
  induction L with
  | nil => intro acc; exact Or.inl rfl
  | cons a T ih =>
    intro acc
    rw [List.foldl_cons]
    rcases searchStep_cases ag before acc a with heq | ⟨h1, _, heq⟩
    · rw [heq]
      rcases ih acc with h | ⟨op, hop, hleg, hval⟩
      · exact Or.inl h
      · exact Or.inr ⟨op, List.mem_cons_of_mem a hop, hleg, hval⟩
    · rw [heq]
      rcases ih (a, cand ag before a) with h | ⟨op, hop, hleg, hval⟩
      · exact Or.inr ⟨a, List.mem_cons_self a T, h1, h⟩
      · exact Or.inr ⟨op, List.mem_cons_of_mem a hop, hleg, hval⟩

lemma take_action_fst (ag : weight_agent) (before : board) :
    (take_action ag before).1 =
      { net := if ag.train then update_weight ag (search ag before).2 else ag.net,
        alpha := ag.alpha,
        s_V := get_V
          (if ag.train then update_weight ag (search ag before).2 else ag.net)
          (get_tuple (before.state_plun (search ag before).1)),
        train := true,
        s_tuples := get_tuple (before.state_plun (search ag before).1) } := by
  unfold take_action
  dsimp only
  split <;> rfl

lemma take_action_snd (ag : weight_agent) (before : board) :
    (take_action ag before).2 =
      if (search ag before).1 ≠ -1 then action.slide (search ag before).1
      else action.null := by
  unfold take_action
  dsimp only
  split <;> rfl

lemma readTables_flatten :
    ∀ (net : List (List ℚ)), (∀ t ∈ net, t.length = 65536) →
      readTables net.length net.flatten = net := by
  intro net
  induction net with
  | nil => intro _; rfl
  | cons t rest ih =>
    intro h
    have ht : t.length = 65536 := h t (List.mem_cons_self t rest)
    simp only [List.length_cons, List.flatten_cons, readTables]
    rw [← ht, List.take_left, List.drop_left,
      ih (fun u hu => h u (List.mem_cons_of_mem t hu))]

/-! The claims. -/

/-- C5: for every 4×4 grid, `get_tuple` returns exactly 8 indices in the
fixed order row0..row3 then col0..col3, each equal to
`4096·d0 + 256·d1 + 16·d2 + d3` where `d0..d3` are the four cell values of
that row or column taken most-significant first.  `get_tuple` is a plain
function of the grid, so repeated calls on the same grid are identical by
construction. -/
theorem get_tuple_spec (g : Grid) :
    (get_tuple g).length = 8 ∧
    get_tuple g =
      [4096 * g 0 0 + 256 * g 0 1 + 16 * g 0 2 + g 0 3,
       4096 * g 1 0 + 256 * g 1 1 + 16 * g 1 2 + g 1 3,
       4096 * g 2 0 + 256 * g 2 1 + 16 * g 2 2 + g 2 3,
       4096 * g 3 0 + 256 * g 3 1 + 16 * g 3 2 + g 3 3,
       4096 * g 0 0 + 256 * g 1 0 + 16 * g 2 0 + g 3 0,
       4096 * g 0 1 + 256 * g 1 1 + 16 * g 2 1 + g 3 1,
       4096 * g 0 2 + 256 * g 1 2 + 16 * g 2 2 + g 3 2,
       4096 * g 0 3 + 256 * g 1 3 + 16 * g 2 3 + g 3 3] := by
  constructor
  · rfl
  · norm_num [get_tuple]

/-- C6: on a grid whose 16 cells all lie in [0,15], every index produced by
`get_tuple` lies in [0, 65535], so each lookup `net[i][tuples[i]]` made by
`get_V` (and by the update routines on tuples produced this way) stays
within a 65536-entry table. -/
theorem get_tuple_index_range (g : Grid) (h : ∀ i j, g i j ≤ 15) :
    ∀ t ∈ get_tuple g, t < 65536 := by
  intro t ht
  have h00 := h 0 0
  have h01 := h 0 1
  have h02 := h 0 2
  have h03 := h 0 3
  have h10 := h 1 0
  have h11 := h 1 1
  have h12 := h 1 2
  have h13 := h 1 3
  have h20 := h 2 0
  have h21 := h 2 1
  have h22 := h 2 2
  have h23 := h 2 3
  have h30 := h 3 0
  have h31 := h 3 1
  have h32 := h 3 2
  have h33 := h 3 3
  simp only [get_tuple, List.mem_cons, List.not_mem_nil, or_false] at ht
  rcases ht with rfl | rfl | rfl | rfl | rfl | rfl | rfl | rfl <;> omega

/-- Witness for C6 at the all-15 grid. -/
theorem get_tuple_index_range_witness :
    (∀ i j, gMax i j ≤ 15) ∧ ∀ t ∈ get_tuple gMax, t < 65536 :=
  ⟨fun _ _ => le_refl 15, get_tuple_index_range gMax (fun _ _ => le_refl 15)⟩

/-- C7: saving a network of 8 tables of 65536 scalars each and loading the
result back reproduces the tables exactly (same count, same scalars, same
order). -/
theorem save_load_roundtrip (net : List (List ℚ)) (h8 : net.length = 8)
    (hlen : ∀ t ∈ net, t.length = 65536) :
    load_weights (save_weights net) = net := by
  unfold load_weights save_weights
  have hmod : net.length % 2 ^ 32 = net.length :=
    Nat.mod_eq_of_lt (by rw [h8]; norm_num)
  simp only [hmod]
  exact readTables_flatten net hlen

/-- Witness for C7 at the all-zero 8×65536 network. -/
theorem save_load_roundtrip_witness :
    (List.replicate 8 (List.replicate 65536 (0 : ℚ))).length = 8 ∧
    (∀ t ∈ List.replicate 8 (List.replicate 65536 (0 : ℚ)),
      t.length = 65536) ∧
    load_weights (save_weights
        (List.replicate 8 (List.replicate 65536 (0 : ℚ)))) =
      List.replicate 8 (List.replicate 65536 (0 : ℚ)) := by
  have h1 : (List.replicate 8 (List.replicate 65536 (0 : ℚ))).length = 8 :=
    List.length_replicate 8 (List.replicate 65536 (0 : ℚ))
  have h2 : ∀ t ∈ List.replicate 8 (List.replicate 65536 (0 : ℚ)),
      t.length = 65536 := by
    intro t ht
    rw [List.eq_of_mem_replicate ht]
    exact List.length_replicate 65536 (0 : ℚ)
  exact ⟨h1, h2, save_load_roundtrip _ h1 h2⟩

/-- C9: the persistence operations fail fatally (modelled as the
`Except.error` exit path with code −1) exactly when the file cannot be
opened (`Option.none` for load, `can_open = false` for save); on every
openable input they succeed, and they raise no recoverable error. -/
theorem weights_io_fatal_iff :
    (∀ file, (∃ e, load_weights_io file = Except.error e) ↔
      file = Option.none) ∧
    (∀ can_open net, (∃ e, save_weights_io can_open net = Except.error e) ↔
      can_open = false) := by
  constructor
  · intro file
    cases file with
    | none => simp [load_weights_io]
    | some f => simp [load_weights_io]
  · intro can_open net
    cases can_open <;> simp [save_weights_io]

/-- C2 (amended): on a call to `take_action` with a carried decision
(`train` set, i.e. every call except the very first on that agent), each
weight entry `net[i][s_tuples[i]]` (for the carried `s_tuples`) is
increased by `alpha · (r_V_best − s_V)`, where `s_V` is the carried
estimate and `r_V_best` is the final value of the search accumulator —
the maximum of its initial value −1.0 and the legal directions'
candidates, characterized exactly by the three middle conjuncts: it is at
least −1, it is an upper bound of every legal direction's candidate, and
it is either −1 or itself the candidate of some legal direction.  It
therefore equals this call's best candidate only when some legal
candidate exceeds −1; otherwise the update target is the clamp value
−1.0.  On a first call (`train` unset) no weight entry is modified. -/
theorem take_action_td_update_clamped (ag : weight_agent) (before : board) :
    (ag.train = true → ∀ i, i < 8 →
      (take_action ag before).1.net i (ag.s_tuples.getD i 0) =
        ag.net i (ag.s_tuples.getD i 0) +
          ag.alpha * ((search ag before).2 - ag.s_V)) ∧
    ((-1 : ℚ) ≤ (search ag before).2) ∧
    (∀ op, (op = 0 ∨ op = 1 ∨ op = 2 ∨ op = 3) → before.slide op ≠ -1 →
      cand ag before op ≤ (search ag before).2) ∧
    ((search ag before).2 = -1 ∨
      ∃ op, (op = 0 ∨ op = 1 ∨ op = 2 ∨ op = 3) ∧ before.slide op ≠ -1 ∧
        (search ag before).2 = cand ag before op) ∧
    (ag.train = false → (take_action ag before).1.net = ag.net) := by
  refine ⟨?_, ?_, ?_, ?_, ?_⟩
  · intro ht i hi
    rw [take_action_fst]
    simp only [ht, if_true]
    simp [update_weight, hi]
  · exact foldl_ge ag before [0, 1, 2, 3] (-1, -1)
  · intro op hop hleg
    refine foldl_ub ag before [0, 1, 2, 3] (-1, -1) op ?_ hleg
    simp only [List.mem_cons, List.not_mem_nil, or_false]
    exact hop
  · rcases foldl_snd_sources ag before [0, 1, 2, 3] (-1, -1) with
      h | ⟨op, hop, hleg, hval⟩
    · exact Or.inl h
    · simp only [List.mem_cons, List.not_mem_nil, or_false] at hop
      exact Or.inr ⟨op, hop, hleg, hval⟩
  · intro ht
    rw [take_action_fst]
    simp [ht]

/-- Witness for C2: an agent with a carried decision (previous tuples
`[1,2,3,4,5,6,7,8]`, previous estimate 0, learning rate 1) on a board with
no legal move; table 0's entry 1 receives the update (toward the clamp
value −1, since no legal candidate exists). -/
theorem take_action_td_update_clamped_witness :
    (take_action agCarry bDead).1.net 0 (agCarry.s_tuples.getD 0 0) =
      agCarry.net 0 (agCarry.s_tuples.getD 0 0) +
        agCarry.alpha * ((search agCarry bDead).2 - agCarry.s_V) :=
  (take_action_td_update_clamped agCarry bDead).1 rfl 0 (by norm_num)

/-- Counterexample to C2 as stated: direction 2 is the only legal
direction on `bOnlyTwo`, so its candidate 5 − 8 = −3 is this call's best
candidate; yet because the accumulator never drops below its initial
−1.0, the carried entry receives `alpha · (−1 − s_V)` (here −1 + (−1) =
−2), not `alpha · (−3 − s_V)` (which would give −4) as the claim
prescribes. -/
theorem td_update_not_best_candidate :
    bOnlyTwo.slide 0 = -1 ∧ bOnlyTwo.slide 1 = -1 ∧
    bOnlyTwo.slide 2 ≠ -1 ∧ bOnlyTwo.slide 3 = -1 ∧
    agNegCarry.train = true ∧
    (take_action agNegCarry bOnlyTwo).1.net 0
        (agNegCarry.s_tuples.getD 0 0) ≠
      agNegCarry.net 0 (agNegCarry.s_tuples.getD 0 0) +
        agNegCarry.alpha * (cand agNegCarry bOnlyTwo 2 - agNegCarry.s_V) := by
  refine ⟨by norm_num [bOnlyTwo], by norm_num [bOnlyTwo],
    by norm_num [bOnlyTwo], by norm_num [bOnlyTwo], rfl, ?_⟩
  norm_num [take_action, search, searchStep, cand, get_V, get_tuple,
    update_weight, agNegCarry, bOnlyTwo, gZero, List.range_succ]

/-- C10: a single `take_action` call mutates at most the 8 weight entries
`net[i][s_tuples[i]]`, `i = 0..7`, at the indices carried from the previous
call; every other entry of the tables is unchanged, and on a first call
(`train` unset) the whole table is unchanged.  The board is consumed
immutably by construction of the embedding (`take_action` never produces a
board). -/
theorem take_action_frame (ag : weight_agent) (before : board) :
    (∀ i j, ¬(i < 8 ∧ j = ag.s_tuples.getD i 0) →
      (take_action ag before).1.net i j = ag.net i j) ∧
    (ag.train = false → (take_action ag before).1.net = ag.net) := by
  constructor
  · intro i j hij
    rw [take_action_fst]
    by_cases ht : ag.train = true
    · simp only [ht, if_true, update_weight]
      rw [if_neg hij]
    · simp [ht]
  · intro ht
    rw [take_action_fst]
    simp [ht]

/-- Witness for C10: entry 47 of table 0 is untouched by the updating call
of the C2 witness. -/
theorem take_action_frame_witness :
    (take_action agCarry bDead).1.net 0 47 = agCarry.net 0 47 :=
  (take_action_frame agCarry bDead).1 0 47 (by norm_num [agCarry])

/-- C4 (amended): `last_update` adds `alpha · (0 − s_V)` to
`net[i][s_tuples[i]]` for each `i` in 0..7 (each touched weight drops by
exactly `alpha · s_V`) and leaves every other entry unchanged; but the
carried state is NOT cleared: `s_V`, `s_tuples` and the `train` flag all
persist, so the next `take_action` call does not behave as a first turn —
it performs another update from the already-flushed state. -/
theorem last_update_flush (ag : weight_agent) :
    (∀ i, i < 8 →
      (last_update ag).net i (ag.s_tuples.getD i 0) =
        ag.net i (ag.s_tuples.getD i 0) + ag.alpha * (0 - ag.s_V)) ∧
    (∀ i j, ¬(i < 8 ∧ j = ag.s_tuples.getD i 0) →
      (last_update ag).net i j = ag.net i j) ∧
    (last_update ag).s_V = ag.s_V ∧
    (last_update ag).s_tuples = ag.s_tuples ∧
    (last_update ag).train = ag.train := by
  refine ⟨?_, ?_, rfl, rfl, rfl⟩
  · intro i hi
    simp [last_update, hi]
  · intro i j hij
    simp only [last_update]
    rw [if_neg hij]

/-- Witness for C4 at the spec's terminal-flush example (`s_V = 5`,
`alpha = 0.1`): the touched entry drops by exactly 0.5. -/
theorem last_update_flush_witness :
    (last_update agFlush).net 0 (agFlush.s_tuples.getD 0 0) =
      agFlush.net 0 (agFlush.s_tuples.getD 0 0) +
        agFlush.alpha * (0 - agFlush.s_V) :=
  (last_update_flush agFlush).1 0 (by norm_num)

/-- Counterexample to C4 as stated: after a terminal flush the carried
state is not cleared to IDLE — `train` is still set, and the very next
`take_action` call (here on a board with no legal move) performs a further
update from the flushed state, changing the touched entry again
(from −1/2 to −11/10). -/
theorem last_update_not_cleared :
    (last_update agFlush).train = true ∧
    (take_action (last_update agFlush) bDead).1.net 0 0 ≠
      (last_update agFlush).net 0 0 := by
  constructor
  · rfl
  · norm_num [take_action, search, searchStep, cand, get_V, get_tuple,
      update_weight, last_update, agFlush, bDead, gZero, List.range_succ]

/-- C1 (amended): whenever some legal direction's candidate exceeds −1 (the
initial value of the incumbent `r_V_best`), `take_action` returns the slide
action whose direction maximizes `candidate = reward + estimate`, scanning
directions in the fixed order {0,1,2,3}, skipping directions whose slide
returns the illegal sentinel, and replacing the incumbent only on strict
improvement, so equal candidates keep the lower-indexed direction.  Here
`d` is characterized as the least argmax: every legal direction's candidate
is at most `cand d`, strictly so for legal directions before `d`. -/
theorem take_action_returns_least_argmax (ag : weight_agent) (before : board)
    (d : Int) (hd : d = 0 ∨ d = 1 ∨ d = 2 ∨ d = 3)
    (hleg : before.slide d ≠ -1)
    (hgt : (-1 : ℚ) < cand ag before d)
    (hmax : ∀ op, (op = 0 ∨ op = 1 ∨ op = 2 ∨ op = 3) →
      before.slide op ≠ -1 → cand ag before op ≤ cand ag before d)
    (hfirst : ∀ op, (op = 0 ∨ op = 1 ∨ op = 2 ∨ op = 3) → op < d →
      before.slide op ≠ -1 → cand ag before op < cand ag before d) :
    (take_action ag before).2 = action.slide d := by
  have hkeep : ∀ S : List Int,
      (∀ op ∈ S, op = 0 ∨ op = 1 ∨ op = 2 ∨ op = 3) →
      S.foldl (searchStep ag before) (d, cand ag before d) =
        (d, cand ag before d) := by
    intro S hS
    apply foldl_keep
    intro op hop
    by_cases h1 : before.slide op = -1
    · exact Or.inl h1
    · exact Or.inr (hmax op (hS op hop) h1)
  have hsearch : search ag before = (d, cand ag before d) := by
    rcases hd with rfl | rfl | rfl | rfl
    · have hstep : searchStep ag before (-1, -1) 0 =
          ((0 : Int), cand ag before 0) :=
        searchStep_take ag before (-1, -1) 0 hleg hgt
      have : search ag before = [1, 2, 3].foldl (searchStep ag before)
          (searchStep ag before (-1, -1) 0) := rfl
      rw [this, hstep]
      exact hkeep [1, 2, 3] (by intro op hop; simp at hop; tauto)
    · have hpre : (([0] : List Int).foldl (searchStep ag before)
          (-1, -1)).2 < cand ag before 1 := by
        apply foldl_lt ag before [0] (-1, -1) (cand ag before 1) hgt
        intro op hop h1
        simp only [List.mem_singleton] at hop
        subst hop
        exact hfirst 0 (by norm_num) (by norm_num) h1
      have hstep : searchStep ag before
          (([0] : List Int).foldl (searchStep ag before) (-1, -1)) 1 =
          ((1 : Int), cand ag before 1) :=
        searchStep_take ag before _ 1 hleg hpre
      have : search ag before = [2, 3].foldl (searchStep ag before)
          (searchStep ag before
            (([0] : List Int).foldl (searchStep ag before) (-1, -1)) 1) := rfl
      rw [this, hstep]
      exact hkeep [2, 3] (by intro op hop; simp at hop; tauto)
    · have hpre : (([0, 1] : List Int).foldl (searchStep ag before)
          (-1, -1)).2 < cand ag before 2 := by
        apply foldl_lt ag before [0, 1] (-1, -1) (cand ag before 2) hgt
        intro op hop h1
        simp only [List.mem_cons, List.not_mem_nil, or_false] at hop
        rcases hop with rfl | rfl
        · exact hfirst 0 (by norm_num) (by norm_num) h1
        · exact hfirst 1 (by norm_num) (by norm_num) h1
      have hstep : searchStep ag before
          (([0, 1] : List Int).foldl (searchStep ag before) (-1, -1)) 2 =
          ((2 : Int), cand ag before 2) :=
        searchStep_take ag before _ 2 hleg hpre
      have : search ag before = [3].foldl (searchStep ag before)
          (searchStep ag before
            (([0, 1] : List Int).foldl (searchStep ag before) (-1, -1)) 2) := rfl
      rw [this, hstep]
      exact hkeep [3] (by intro op hop; simp at hop; tauto)
    · have hpre : (([0, 1, 2] : List Int).foldl (searchStep ag before)
          (-1, -1)).2 < cand ag before 3 := by
        apply foldl_lt ag before [0, 1, 2] (-1, -1) (cand ag before 3) hgt
        intro op hop h1
        simp only [List.mem_cons, List.not_mem_nil, or_false] at hop
        rcases hop with rfl | rfl | rfl
        · exact hfirst 0 (by norm_num) (by norm_num) h1
        · exact hfirst 1 (by norm_num) (by norm_num) h1
        · exact hfirst 2 (by norm_num) (by norm_num) h1
      have hstep : searchStep ag before
          (([0, 1, 2] : List Int).foldl (searchStep ag before) (-1, -1)) 3 =
          ((3 : Int), cand ag before 3) :=
        searchStep_take ag before _ 3 hleg hpre
      have : search ag before = searchStep ag before
          (([0, 1, 2] : List Int).foldl (searchStep ag before) (-1, -1)) 3 := rfl
      rw [this, hstep]
  have hne : d ≠ -1 := by
    rcases hd with rfl | rfl | rfl | rfl <;> norm_num
  rw [take_action_snd, hsearch]
  simp [hne]

/-- Witness for C1 on a fresh agent and a board where all four directions
are legal with candidates 1, 3, 3, 0: direction 1 is the least argmax (the
tie with direction 2 keeps the lower index) and is returned. -/
theorem take_action_returns_least_argmax_witness :
    (take_action agFresh bAllLegal).2 = action.slide 1 := by
  apply take_action_returns_least_argmax agFresh bAllLegal 1
  · norm_num
  · norm_num [bAllLegal]
  · norm_num [cand, get_V, get_tuple, agFresh, bAllLegal, gZero,
      List.range_succ]
  · intro op hop _
    rcases hop with rfl | rfl | rfl | rfl <;>
      norm_num [cand, get_V, get_tuple, agFresh, bAllLegal, gZero,
        List.range_succ]
  · intro op hop hlt _
    rcases hop with rfl | rfl | rfl | rfl
    · norm_num [cand, get_V, get_tuple, agFresh, bAllLegal, gZero,
        List.range_succ]
    · norm_num at hlt
    · norm_num at hlt
    · norm_num at hlt

/-- Counterexample to C1 as stated: on this board direction 0 is legal (in
fact the only legal direction, hence the candidate-maximizing one), but
because its candidate −8 does not exceed the incumbent's initial value
−1.0, `take_action` returns the null action instead of the maximizing
slide. -/
theorem take_action_misses_low_candidates :
    bOnlyZero.slide 0 ≠ -1 ∧
    (take_action agAllNeg bOnlyZero).2 = action.null := by
  constructor
  · norm_num [bOnlyZero]
  · norm_num [take_action, search, searchStep, cand, get_V, get_tuple,
      agAllNeg, bOnlyZero, gZero, List.range_succ]

/-- C3 (amended): `take_action` returns the null action iff every direction
in {0,1,2,3} either is illegal (its slide returns the sentinel −1) or has
candidate at most −1 (the initial value of the incumbent `r_V_best`); in
every other case it returns a slide action.  In particular a board with a
legal direction but all legal candidates ≤ −1 yields the null action. -/
theorem take_action_null_iff (ag : weight_agent) (before : board) :
    (take_action ag before).2 = action.null ↔
      ∀ op, (op = 0 ∨ op = 1 ∨ op = 2 ∨ op = 3) →
        before.slide op = -1 ∨ cand ag before op ≤ -1 := by
  rw [take_action_snd]
  constructor
  · intro h
    by_contra hc
    push_neg at hc
    obtain ⟨op, hop, hleg, hlt⟩ := hc
    have hmem : op ∈ ([0, 1, 2, 3] : List Int) := by
      simp only [List.mem_cons, List.not_mem_nil, or_false]
      exact hop
    have hne : (search ag before).1 ≠ -1 :=
      foldl_hits ag before [0, 1, 2, 3] (-1, -1)
        (by
          intro o ho
          simp only [List.mem_cons, List.not_mem_nil, or_false] at ho
          rcases ho with rfl | rfl | rfl | rfl <;> norm_num)
        ⟨op, hmem, hleg, hlt⟩
    rw [if_pos hne] at h
    exact absurd h (by simp)
  · intro h
    have hs : search ag before = (-1, -1) := by
      apply foldl_keep
      intro op hop
      simp only [List.mem_cons, List.not_mem_nil, or_false] at hop
      exact h op hop
    rw [hs]
    simp

/-- Counterexample to C3 as stated: direction 2 is legal here, yet
`take_action` returns the null action, because the single legal candidate
5 − 8 = −3 never beats the incumbent's initial value −1.0. -/
theorem take_action_null_with_legal_move :
    bOnlyTwo.slide 2 ≠ -1 ∧
    (take_action agAllNeg bOnlyTwo).2 = action.null := by
  constructor
  · norm_num [bOnlyTwo]
  · norm_num [take_action, search, searchStep, cand, get_V, get_tuple,
      agAllNeg, bOnlyTwo, gZero, List.range_succ]

/-- C8 (amended): after a call returning the slide action in direction `d`,
the carried tuples are exactly the feature tuples of `d`'s afterstate grid,
and the carried estimate is the estimate of those tuples evaluated against
the agent's tables as they stand after this call's TD update — not the
estimate computed during the search, which used the pre-update tables. -/
theorem take_action_carried_state (ag : weight_agent) (before : board)
    (d : Int) (h : (take_action ag before).2 = action.slide d) :
    (take_action ag before).1.s_tuples = get_tuple (before.state_plun d) ∧
    (take_action ag before).1.s_V =
      get_V (take_action ag before).1.net
        (take_action ag before).1.s_tuples := by
  have hd : (search ag before).1 = d := by
    rw [take_action_snd] at h
    by_cases hne : (search ag before).1 = -1
    · rw [if_neg (not_not_intro hne)] at h
      exact absurd h (by simp)
    · rw [if_pos hne] at h
      injection h
  constructor
  · rw [take_action_fst, hd]
  · rw [take_action_fst]

/-- Witness for C8: a fresh agent on a board whose only legal direction is
0; the returned action is `slide 0` and the carried tuples are those of
direction 0's afterstate. -/
theorem take_action_carried_state_witness :
    (take_action agFresh bDelta3).2 = action.slide 0 ∧
    (take_action agFresh bDelta3).1.s_tuples =
      get_tuple (bDelta3.state_plun 0) := by
  have h : (take_action agFresh bDelta3).2 = action.slide 0 := by
    norm_num [take_action, search, searchStep, cand, get_V, get_tuple,
      agFresh, bDelta3, gZero, List.range_succ]
  exact ⟨h, (take_action_carried_state agFresh bDelta3 0 h).1⟩

/-- Counterexample to C8 as stated: the previous tuples of `agOverlap`
coincide with the winning afterstate's tuples, so this call's TD update
changes exactly the entries the new estimate reads; the carried estimate
becomes 3/10 while the estimate computed during the search (against the
pre-update tables) was 0. -/
theorem take_action_estimate_not_search_time :
    (take_action agOverlap bDelta3).2 = action.slide 0 ∧
    (take_action agOverlap bDelta3).1.s_V ≠
      get_V agOverlap.net (get_tuple (bDelta3.state_plun 0)) := by
  constructor <;>
    norm_num [take_action, search, searchStep, cand, get_V, get_tuple,
      update_weight, agOverlap, bDelta3, gZero, List.range_succ]
